import Mathlib

/-!
Verification development for the `s3-fast-list` driver (`src/main.rs`).

The definitions below shallowly embed the pure data transformations of the
driver: CLI option normalization (main.rs lines 103-148), the key-space hints
loading pipeline (lines 184-212), the sender-handle accounting for the record
channel (lines 251-289), the outstanding-task counter (lines 116-137, 248), and
the task spawn sites (lines 264, 284, 324, 332).  Components of the repository
that live in modules not present under `src/` (`data_map.rs`, `core.rs`) are
modelled from the specification; each such definition carries a doc comment
saying so.

Object keys and hint lines are modelled as their character sequences
(`List Char`): Rust compares `String`s lexicographically on their UTF-8 bytes,
and the byte-wise order of valid UTF-8 coincides with the lexicographic order
on the decoded character sequences, which is the order `List Char` carries
here.
-/

namespace S3FastList

/-- An object key (or a key-space hint line), as its character sequence,
ordered lexicographically. -/
abbrev Key := List Char

/-- Run mode of the tool (`core::RunMode`, referenced in main.rs lines 122 and
130): `List` for single-bucket listing, `BiDir` for two-bucket diff. -/
inductive RunMode
  | List
  | BiDir
deriving DecidableEq

/-- CLI default for the starting prefix (main.rs line 25: `default_value = "/"`). -/
def cli_prefix_default : String := "/"

/-- main.rs line 111: `let opt_prefix = if cli.prefix == "/" { "".to_string() } else { cli.prefix };`
A starting prefix of "/" is normalized to the empty string; anything else
passes through unchanged. -/
def opt_prefix ( cli_prefix : String) : String :=
  if cli_prefix = "/" then "" else cli_prefix

/-- main.rs lines 254 and 272: each listing task receives a clone of
`opt_prefix` as its starting point (one task in list mode, two in diff mode). -/
def task_start_keys (mode : RunMode) ( cli_prefix : String) : List String :=
  match mode with
  | RunMode.List => [ opt_prefix cli_prefix]
  | RunMode.BiDir => [ opt_prefix cli_prefix, opt_prefix cli_prefix]

/-- main.rs line 143: `let opt_force_path_style = cli.force_path_style || opt_endpoint.is_some();`
Path-style addressing is used when explicitly requested or when a custom
endpoint URL is supplied. -/
def opt_force_path_style (force_path_style : Bool) (endpoint : Option String) : Bool :=
  force_path_style || endpoint.isSome

/-- Per-listing-task configuration, restricted to the fields the claims are
about (`core::S3TaskContext`). -/
structure S3TaskContext where
  bucket : String
  region : Option String
  endpoint : Option String
  force_path_style : Bool
deriving DecidableEq

/-- Modelled from the spec: `S3TaskContext::new` lives in `core.rs`, which is
not under `src/`; per the spec's Task Context data model it stores its
per-task configuration read-only after construction. -/
def S3TaskContext.new (bucket : String) (region endpoint : Option String)
    (fps : Bool) : S3TaskContext :=
  ⟨bucket, region, endpoint, fps⟩

/-- main.rs lines 260-263: the left (source) task context; the addressing flag
passed in is `opt_force_path_style`. -/
def left_task_ctx (bucket : String) (region endpoint : Option String)
    (force_path_style : Bool) : S3TaskContext :=
  S3TaskContext.new bucket region endpoint
    ( opt_force_path_style force_path_style endpoint)

/-- main.rs lines 279-282: the right (target) task context in diff mode; it
receives the same `opt_force_path_style` value as the left one. -/
def right_task_ctx (target_bucket : String) (target_region endpoint : Option String)
    (force_path_style : Bool) : S3TaskContext :=
  S3TaskContext.new target_bucket target_region endpoint
    ( opt_force_path_style force_path_style endpoint)

/-- main.rs lines 116-137: the outstanding-task counter starts from a baseline
of 2 (data map task and mon task) and adds one listing task in list mode,
two in diff mode. -/
def g_tasks_count : RunMode → Nat
  | RunMode.List => 2 + 1
  | RunMode.BiDir => 2 + 2

/-- The shared run state, restricted to the fields the claims are about
(`core::GlobalState`). -/
structure GlobalState where
  quit : Bool
  tasks_count : Nat
  start_ts : Nat
deriving DecidableEq

/-- Modelled from the spec: `GlobalState::new` lives in `core.rs`, which is not
under `src/`; per the spec's Shared Run State data model the outstanding-task
counter is initialized to the number it is given (main.rs line 248 passes
`g_tasks_count`). -/
def GlobalState.new (quit : Bool) (count : Nat) (ts : Nat) : GlobalState :=
  ⟨quit, count, ts⟩

/-- Task spawn sites in main.rs: the left listing task (line 264), the right
listing task in diff mode only (line 284), the data map task (line 324) and
the mon task (line 332). -/
def tasks_spawned : RunMode → Nat
  | RunMode.List => 1 + 1 + 1
  | RunMode.BiDir => 1 + 1 + 1 + 1

/-- main.rs lines 200-203: the hints file is read line by line and every line
is `.unwrap()`ed.  `none` in the input models a line that fails to read as a
valid text line (e.g. invalid UTF-8); the `none` result models the panic
raised by `.unwrap()`, which aborts the whole program. -/
def load_ks_lines : List (Option Key) → Option (List Key)
  | [] => some []
  | none :: _ => none
  | some s :: rest => (load_ks_lines rest).map (fun l => s :: l)

/-- main.rs lines 184 and 199-203: `ks_list` starts empty and is only assigned
from the file when `File::open` succeeds; an absent file (`none` here) is not
an error and leaves the list empty. -/
def ks_list_from_file : Option (List (Option Key)) → Option (List Key)
  | none => some []
  | some lines => load_ks_lines lines

/-- Rust `Vec::dedup` (main.rs line 208): removes consecutive repeated
elements, keeping the first of each run. -/
def dedup_consec : List Key → List Key
  | [] => []
  | [a] => [a]
  | a :: b :: rest =>
    if a = b then dedup_consec (b :: rest) else a :: dedup_consec (b :: rest)

/-- main.rs lines 206-208: `ks_list.sort(); ks_list.dedup();`.  Rust's
`Vec::sort` is a stable comparison sort by `≤`; since the lexicographic order
on keys is antisymmetric, the sorted permutation of a list is unique, so
insertion sort is an exact model of it. -/
def sort_dedup (l : List Key) : List Key :=
  dedup_consec (List.insertionSort (· ≤ ·) l)

/-- A partition boundary of the key space: `none` is the absolute start (as a
lower bound) or the absolute end (as an upper bound). -/
abbrev Bound := Option Key

/-- One key-space hint pair: a half-open range `[start, end)` of keys. -/
abbrev KsPair := Bound × Bound

/-- The lower bound of a range admits key `k`. -/
def lowOk : Bound → Key → Bool
  | none, _ => true
  | some s, k => decide (s ≤ k)

/-- The upper bound of a range admits key `k`. -/
def highOk : Bound → Key → Bool
  | none, _ => true
  | some e, k => decide (k < e)

/-- Membership of key `k` in the half-open range `r`. -/
def inRange (r : KsPair) (k : Key) : Bool :=
  lowOk r.1 k && highOk r.2 k

/-- Two ranges are non-overlapping: no key lies in both. -/
def disjointR (r₁ r₂ : KsPair) : Prop :=
  ∀ k : Key, ¬(inRange r₁ k = true ∧ inRange r₂ k = true)

/-- Chain of ranges starting at lower bound `lo` whose inner boundaries are the
listed hints, the last range extending to the absolute end. -/
def pairsFrom : Bound → List Key → List KsPair
  | lo, [] => [(lo, none)]
  | lo, h :: rest => (lo, some h) :: pairsFrom (some h) rest

/-- Modelled from the spec: `KeySpaceHints::new_from` lives in `data_map.rs`,
which is not under `src/`.  Per spec section 4.1 and the Key-Space Hint Pair
data model: adjacent hints are paired into range boundaries, yielding
`max(1, n-1)` partitions; the first and last ranges extend to the absolute
start/end of the key space; an empty input yields a single full range.
Dropping the first and last hint and chaining the interior ones between the
two absolute ends realizes exactly that pairing. -/
def KeySpaceHints.new_from (input : List Key) : List KsPair :=
  pairsFrom none (input.drop 1).dropLast

/-- main.rs line 211: the hints handed to the left listing task. -/
def left_ks_hints (ks_list : List Key) : List KsPair :=
  KeySpaceHints.new_from ks_list

/-- main.rs line 283: the hints handed to the right listing task in diff mode,
built by a second `new_from` call on the same `ks_list`. -/
def right_ks_hints (ks_list : List Key) : List KsPair :=
  KeySpaceHints.new_from ks_list

/-- Holders of sender handles on the record channel (`data_map_channel`). -/
inductive SenderHolder
  | mainScope
  | leftTask
  | rightTask
deriving DecidableEq

/-- A holder is a producer (listing) task. -/
def SenderHolder.isProducer : SenderHolder → Bool
  | SenderHolder.leftTask => true
  | SenderHolder.rightTask => true
  | SenderHolder.mainScope => false

/-- Sender handles on `data_map_channel` once all tasks are spawned, traced
from main.rs: line 251 creates the channel, whose original sender is owned by
the surrounding async scope; line 262 clones it into the left task context;
line 281 (diff mode only) moves the original into the right task context.  In
list mode the original is never moved out and stays alive in the main scope
through the join loop (lines 338-339). -/
def channel_senders (mode : RunMode) : List SenderHolder :=
  let after_create := [SenderHolder.mainScope]
  let after_left_clone := SenderHolder.leftTask :: after_create
  if mode = RunMode.BiDir then
    SenderHolder.rightTask :: after_left_clone.erase SenderHolder.mainScope
  else
    after_left_clone

/-- Modelled from the spec: the metadata carried by an Object Record
(`data_map.rs` is not under `src/`): a size and a last-modified/etag-equivalent
modification marker. -/
structure ObjMeta where
  size : Nat
  mtime : Nat
deriving DecidableEq

/-- Direction tag of an Object Record: which bucket side produced it. -/
inductive Dir
  | left
  | right
deriving DecidableEq

/-- One discovered object, as carried through the record channel: key,
metadata and a direction tag. -/
structure ObjectRecord where
  key : Key
  meta : ObjMeta
  dir : Dir
deriving DecidableEq

/-- Modelled from the spec: the per-key state the Aggregation/Diff task keeps
in its map (spec section 4.3): metadata seen from the left and from the right,
each `none` until that side reports the key. -/
structure KeyState where
  metaL : Option ObjMeta
  metaR : Option ObjMeta
deriving DecidableEq

/-- Recording one Object Record into a key's state: the record's side's
metadata slot is set. -/
def KeyState.update (s : KeyState) (r : ObjectRecord) : KeyState :=
  match r.dir with
  | Dir.left => ⟨some r.meta, s.metaR⟩
  | Dir.right => ⟨s.metaL, some r.meta⟩

/-- Fold step of the diff map restricted to key `k`: records for other keys
leave `k`'s state unchanged. -/
def diffStep (k : Key) (s : KeyState) (r : ObjectRecord) : KeyState :=
  if r.key = k then s.update r else s

/-- The state the diff map holds for key `k` after consuming the whole record
stream `rs` (records of the two producers, in any interleaving). -/
def runDiff (rs : List ObjectRecord) (k : Key) : KeyState :=
  rs.foldl (diffStep k) ⟨none, none⟩

/-- Per-key classification produced at finalization in diff mode. -/
inductive DiffClass
  | leftOnly
  | rightOnly
  | mismatch
deriving DecidableEq

/-- Modelled from the spec: the classification rule of spec section 4.3 —
left-only when only the left side reported the key, right-only when only the
right side did, a mismatch when both did with differing metadata, and nothing
when both did with identical metadata. -/
def classifyState (s : KeyState) : Option DiffClass :=
  match s.metaL, s.metaR with
  | some _, none => some DiffClass.leftOnly
  | none, some _ => some DiffClass.rightOnly
  | some a, some b => if a = b then none else some DiffClass.mismatch
  | none, none => none

/-- Final classification of key `k` after the whole stream `rs`. -/
def classifyKey (rs : List ObjectRecord) (k : Key) : Option DiffClass :=
  classifyState (runDiff rs k)

/-- Key `k` was reported by side `d` somewhere in the stream. -/
def seenFrom (rs : List ObjectRecord) (d : Dir) (k : Key) : Bool :=
  rs.any (fun r => decide (r.key = k) && decide (r.dir = d))

/-- The diff output over a whole stream: every distinct key of the stream,
with its classification when one is emitted. -/
def diffOutput (rs : List ObjectRecord) : List (Key × DiffClass) :=
  (sort_dedup (rs.map (fun r => r.key))).filterMap
    (fun k => (classifyKey rs k).map (fun c => (k, c)))

/-- Concrete diff-mode scenario of the spec: left side lists keys a, b, c and
the right side lists b, c, d, with identical metadata for b and c on both
sides. -/
def exRecords : List ObjectRecord :=
  [ ⟨['a'], ⟨1, 10⟩, Dir.left⟩
  , ⟨['b'], ⟨2, 20⟩, Dir.left⟩
  , ⟨['c'], ⟨3, 30⟩, Dir.left⟩
  , ⟨['b'], ⟨2, 20⟩, Dir.right⟩
  , ⟨['c'], ⟨3, 30⟩, Dir.right⟩
  , ⟨['d'], ⟨4, 40⟩, Dir.right⟩ ]

/-! Helper lemmas about `dedup_consec` and `sort_dedup`. -/

theorem dedup_consec_sublist :
    ∀ l : List Key, List.Sublist (dedup_consec l) l := by
  intro l
  induction l with
  | nil => simp [dedup_consec]
  | cons a t ih =>
    cases t with
    | nil => simp [dedup_consec]
    | cons b r =>
      by_cases hab : a = b
      · simpa [dedup_consec, hab] using List.Sublist.cons a ih
      · simpa [dedup_consec, hab] using List.Sublist.cons₂ a ih

theorem mem_dedup_consec {x : Key} :
    ∀ l : List Key, x ∈ dedup_consec l ↔ x ∈ l := by
  intro l
  induction l with
  | nil => simp [dedup_consec]
  | cons a t ih =>
    cases t with
    | nil => simp [dedup_consec]
    | cons b r =>
      by_cases hab : a = b
      · subst hab
        rw [show dedup_consec (a :: a :: r) = dedup_consec (a :: r) by
          simp [dedup_consec]]
        rw [ih]
        simp
      · simp only [dedup_consec, if_neg hab, List.mem_cons] at *
        rw [ih]

theorem sorted_lt_dedup_consec :
    ∀ l : List Key, l.Sorted (· ≤ ·) → (dedup_consec l).Sorted (· < ·) := by
  intro l
  induction l with
  | nil => simp [dedup_consec]
  | cons a t ih =>
    cases t with
    | nil => simp [dedup_consec]
    | cons b r =>
      intro hs
      rw [List.sorted_cons] at hs
      by_cases hab : a = b
      · rw [show dedup_consec (a :: b :: r) = dedup_consec (b :: r) by
          simp [dedup_consec, hab]]
        exact ih hs.2
      · rw [show dedup_consec (a :: b :: r) = a :: dedup_consec (b :: r) by
          simp [dedup_consec, hab]]
        rw [List.sorted_cons]
        refine ⟨?_, ih hs.2⟩
        intro x hx
        have hxm : x ∈ b :: r := (dedup_consec_sublist (b :: r)).subset hx
        have hb : a < b := lt_of_le_of_ne (hs.1 b (by simp)) hab
        rcases List.mem_cons.mp hxm with hxb | hxr
        · exact hxb ▸ hb
        · exact lt_of_lt_of_le hb ((List.sorted_cons.mp hs.2).1 x hxr)

theorem dedup_consec_eq_self :
    ∀ l : List Key, l.Sorted (· < ·) → dedup_consec l = l := by
  intro l
  induction l with
  | nil => simp [dedup_consec]
  | cons a t ih =>
    cases t with
    | nil => simp [dedup_consec]
    | cons b r =>
      intro hs
      rw [List.sorted_cons] at hs
      have hab : a ≠ b := ne_of_lt (hs.1 b (by simp))
      rw [show dedup_consec (a :: b :: r) = a :: dedup_consec (b :: r) by
        simp [dedup_consec, hab]]
      rw [ih hs.2]

theorem sort_dedup_sorted_lt (l : List Key) : (sort_dedup l).Sorted (· < ·) :=
  sorted_lt_dedup_consec _ (List.sorted_insertionSort (· ≤ ·) l)

theorem sort_dedup_sorted_le (l : List Key) : (sort_dedup l).Sorted (· ≤ ·) :=
  (sort_dedup_sorted_lt l).imp le_of_lt

theorem sort_dedup_nodup (l : List Key) : (sort_dedup l).Nodup :=
  (sort_dedup_sorted_lt l).nodup

theorem mem_sort_dedup {x : Key} (l : List Key) : x ∈ sort_dedup l ↔ x ∈ l := by
  unfold sort_dedup
  rw [mem_dedup_consec]
  exact (List.perm_insertionSort (· ≤ ·) l).mem_iff

theorem sort_dedup_idem (l : List Key) : sort_dedup (sort_dedup l) = sort_dedup l := by
  conv_lhs => rw [sort_dedup]
  rw [(sort_dedup_sorted_le l).insertionSort_eq]
  exact dedup_consec_eq_self _ (sort_dedup_sorted_lt l)

/-! Helper lemmas about `pairsFrom` and `KeySpaceHints.new_from`. -/

theorem pairsFrom_length : ∀ (m : List Key) (lo : Bound),
    (pairsFrom lo m).length = m.length + 1 := by
  intro m
  induction m with
  | nil => intro lo; simp [pairsFrom]
  | cons h t ih => intro lo; simp [pairsFrom, ih]

theorem pairsFrom_cover : ∀ (m : List Key) (lo : Bound) (k : Key),
    lowOk lo k = true → ∃ r ∈ pairsFrom lo m, inRange r k = true := by
  intro m
  induction m with
  | nil =>
    intro lo k hlo
    exact ⟨(lo, none), by simp [pairsFrom], by simp [inRange, hlo, highOk]⟩
  | cons h t ih =>
    intro lo k hlo
    by_cases hk : k < h
    · exact ⟨(lo, some h), by simp [pairsFrom],
        by simp [inRange, hlo, highOk, hk]⟩
    · have hlo2 : lowOk (some h) k = true := by
        simp [lowOk, le_of_not_lt hk]
      obtain ⟨r, hr, hin⟩ := ih (some h) k hlo2
      exact ⟨r, by simp [pairsFrom]; right; exact hr, hin⟩

theorem pairsFrom_low : ∀ (m : List Key) (lo : Bound) (r : KsPair),
    r ∈ pairsFrom lo m → r.1 = lo ∨ ∃ b ∈ m, r.1 = some b := by
  intro m
  induction m with
  | nil =>
    intro lo r hr
    simp [pairsFrom] at hr
    left
    rw [hr]
  | cons h t ih =>
    intro lo r hr
    simp only [pairsFrom, List.mem_cons] at hr
    rcases hr with hr | hr
    · left; rw [hr]
    · rcases ih (some h) r hr with h1 | ⟨b, hb, h1⟩
      · right; exact ⟨h, by simp, h1⟩
      · right; exact ⟨b, by simp [hb], h1⟩

theorem pairsFrom_pairwise_disjoint : ∀ (m : List Key) (lo : Bound),
    m.Sorted (· < ·) → (pairsFrom lo m).Pairwise disjointR := by
  intro m
  induction m with
  | nil => intro lo _; simp [pairsFrom, List.pairwise_cons]
  | cons h t ih =>
    intro lo hs
    rw [List.sorted_cons] at hs
    simp only [pairsFrom]
    refine List.Pairwise.cons ?_ (ih (some h) hs.2)
    intro r hr
    intro k hk
    obtain ⟨hk1, hk2⟩ := hk
    have hkh : k < h := by
      have := (Bool.and_eq_true _ _).mp hk1
      simpa [highOk] using this.2
    have hlow : lowOk r.1 k = true := ((Bool.and_eq_true _ _).mp hk2).1
    rcases pairsFrom_low t (some h) r hr with h1 | ⟨b, hb, h1⟩
    · rw [h1] at hlow
      have : h ≤ k := by simpa [lowOk] using hlow
      exact absurd hkh (not_lt.mpr this)
    · rw [h1] at hlow
      have hbk : b ≤ k := by simpa [lowOk] using hlow
      have hhb : h < b := hs.1 b hb
      exact absurd hkh (not_lt.mpr (le_of_lt (lt_of_lt_of_le hhb hbk)))

theorem new_from_length (input : List Key) :
    (KeySpaceHints.new_from input).length = max 1 (input.length - 1) := by
  unfold KeySpaceHints.new_from
  rw [pairsFrom_length, List.length_dropLast, List.length_drop]
  omega

theorem new_from_cover (input : List Key) (k : Key) :
    ∃ r ∈ KeySpaceHints.new_from input, inRange r k = true :=
  pairsFrom_cover _ none k rfl

theorem new_from_pairwise_disjoint (input : List Key)
    (hs : input.Sorted (· < ·)) :
    (KeySpaceHints.new_from input).Pairwise disjointR := by
  apply pairsFrom_pairwise_disjoint
  exact List.Pairwise.sublist
    ((input.drop 1).dropLast_sublist.trans (input.drop_sublist 1)) hs

/-! Helper lemmas about the diff map. -/

theorem foldl_diffStep_metaL (rs : List ObjectRecord) :
    ∀ (s : KeyState) (k : Key),
    ((rs.foldl (diffStep k) s).metaL).isSome
      = (s.metaL.isSome || seenFrom rs Dir.left k) := by
  induction rs with
  | nil => intro s k; simp [seenFrom]
  | cons r t ih =>
    intro s k
    rw [List.foldl_cons, ih]
    have hseen : seenFrom (r :: t) Dir.left k
        = ((decide (r.key = k) && decide (r.dir = Dir.left))
            || seenFrom t Dir.left k) := by
      simp [seenFrom]
    rw [hseen]
    cases hd : r.dir <;> by_cases hk : r.key = k <;>
      simp [diffStep, KeyState.update, hd, hk, Bool.or_assoc, Bool.or_comm,
        Bool.or_left_comm]

theorem foldl_diffStep_metaR (rs : List ObjectRecord) :
    ∀ (s : KeyState) (k : Key),
    ((rs.foldl (diffStep k) s).metaR).isSome
      = (s.metaR.isSome || seenFrom rs Dir.right k) := by
  induction rs with
  | nil => intro s k; simp [seenFrom]
  | cons r t ih =>
    intro s k
    rw [List.foldl_cons, ih]
    have hseen : seenFrom (r :: t) Dir.right k
        = ((decide (r.key = k) && decide (r.dir = Dir.right))
            || seenFrom t Dir.right k) := by
      simp [seenFrom]
    rw [hseen]
    cases hd : r.dir <;> by_cases hk : r.key = k <;>
      simp [diffStep, KeyState.update, hd, hk, Bool.or_assoc, Bool.or_comm,
        Bool.or_left_comm]

theorem runDiff_metaL_isSome (rs : List ObjectRecord) (k : Key) :
    ((runDiff rs k).metaL).isSome = seenFrom rs Dir.left k := by
  have h := foldl_diffStep_metaL rs ⟨none, none⟩ k
  simpa [runDiff] using h

theorem runDiff_metaR_isSome (rs : List ObjectRecord) (k : Key) :
    ((runDiff rs k).metaR).isSome = seenFrom rs Dir.right k := by
  have h := foldl_diffStep_metaR rs ⟨none, none⟩ k
  simpa [runDiff] using h

/-! The claims. -/

/-- C1: for every sorted, deduplicated list of N hint strings, Key-Space-Hints
construction yields exactly max(1, N-1) partition ranges that are pairwise
non-overlapping and together cover the whole key space (hence in particular
every key under the starting prefix); for the empty list it yields the single
full-range partition. -/
theorem C1_new_from_partitions (input : List Key)
    (hsorted : input.Sorted (· ≤ ·)) (hdedup : input.Nodup) :
    (KeySpaceHints.new_from input).length = max 1 (input.length - 1) ∧
    (∀ k : Key, ∃ r ∈ KeySpaceHints.new_from input, inRange r k = true) ∧
    (KeySpaceHints.new_from input).Pairwise disjointR ∧
    KeySpaceHints.new_from [] = [(none, none)] := by
  refine ⟨new_from_length input, fun k => new_from_cover input k, ?_, rfl⟩
  exact new_from_pairwise_disjoint input (hsorted.lt_of_le hdedup)

/-- Witness for C1 at the concrete sorted, deduplicated hints list a, b, c. -/
theorem C1_witness :
    (([['a'], ['b'], ['c']] : List Key).Sorted (· ≤ ·) ∧
      ([['a'], ['b'], ['c']] : List Key).Nodup) ∧
    ((KeySpaceHints.new_from [['a'], ['b'], ['c']]).length
        = max 1 (([['a'], ['b'], ['c']] : List Key).length - 1) ∧
      (∀ k : Key, ∃ r ∈ KeySpaceHints.new_from [['a'], ['b'], ['c']],
        inRange r k = true) ∧
      (KeySpaceHints.new_from [['a'], ['b'], ['c']]).Pairwise disjointR ∧
      KeySpaceHints.new_from [] = [(none, none)]) :=
  ⟨⟨by decide, by decide⟩,
    C1_new_from_partitions [['a'], ['b'], ['c']] (by decide) (by decide)⟩

/-- C2: in diff mode, after both producers complete, a key seen only from the
left yields exactly a left-only result, a key seen only from the right yields
a right-only result, a key seen from both sides with differing stored metadata
yields a mismatch, and a key seen from both sides with identical metadata (or
from neither) yields no result; in particular, for left a, b, c and right
b, c, d with identical metadata for b and c the output is exactly a left-only
entry for a and a right-only entry for d, with no mismatch entries. -/
theorem C2_diff_classification :
    (∀ (rs : List ObjectRecord) (k : Key),
      seenFrom rs Dir.left k = true → seenFrom rs Dir.right k = false →
      classifyKey rs k = some DiffClass.leftOnly) ∧
    (∀ (rs : List ObjectRecord) (k : Key),
      seenFrom rs Dir.left k = false → seenFrom rs Dir.right k = true →
      classifyKey rs k = some DiffClass.rightOnly) ∧
    (∀ (rs : List ObjectRecord) (k : Key) (m₁ m₂ : ObjMeta),
      runDiff rs k = ⟨some m₁, some m₂⟩ → m₁ ≠ m₂ →
      classifyKey rs k = some DiffClass.mismatch) ∧
    (∀ (rs : List ObjectRecord) (k : Key) (m : ObjMeta),
      runDiff rs k = ⟨some m, some m⟩ → classifyKey rs k = none) ∧
    (∀ (rs : List ObjectRecord) (k : Key),
      seenFrom rs Dir.left k = false → seenFrom rs Dir.right k = false →
      classifyKey rs k = none) ∧
    diffOutput exRecords
      = [(['a'], DiffClass.leftOnly), (['d'], DiffClass.rightOnly)] := by
  refine ⟨?_, ?_, ?_, ?_, ?_, by decide⟩
  · intro rs k h1 h2
    have hL := runDiff_metaL_isSome rs k
    rw [h1] at hL
    obtain ⟨m, hm⟩ := Option.isSome_iff_exists.mp hL
    have hR := runDiff_metaR_isSome rs k
    rw [h2] at hR
    have hRn : (runDiff rs k).metaR = none := by
      cases hr : (runDiff rs k).metaR
      · rfl
      · rw [hr] at hR; simp at hR
    have hstate : runDiff rs k = ⟨some m, none⟩ := by
      cases h : runDiff rs k
      rw [h] at hm hRn
      simp_all
    simp [classifyKey, hstate, classifyState]
  · intro rs k h1 h2
    have hR := runDiff_metaR_isSome rs k
    rw [h2] at hR
    obtain ⟨m, hm⟩ := Option.isSome_iff_exists.mp hR
    have hL := runDiff_metaL_isSome rs k
    rw [h1] at hL
    have hLn : (runDiff rs k).metaL = none := by
      cases hr : (runDiff rs k).metaL
      · rfl
      · rw [hr] at hL; simp at hL
    have hstate : runDiff rs k = ⟨none, some m⟩ := by
      cases h : runDiff rs k
      rw [h] at hm hLn
      simp_all
    simp [classifyKey, hstate, classifyState]
  · intro rs k m₁ m₂ hstate hne
    simp [classifyKey, hstate, classifyState, hne]
  · intro rs k m hstate
    simp [classifyKey, hstate, classifyState]
  · intro rs k h1 h2
    have hL := runDiff_metaL_isSome rs k
    rw [h1] at hL
    have hR := runDiff_metaR_isSome rs k
    rw [h2] at hR
    have hLn : (runDiff rs k).metaL = none := by
      cases hr : (runDiff rs k).metaL
      · rfl
      · rw [hr] at hL; simp at hL
    have hRn : (runDiff rs k).metaR = none := by
      cases hr : (runDiff rs k).metaR
      · rfl
      · rw [hr] at hR; simp at hR
    have hstate : runDiff rs k = ⟨none, none⟩ := by
      cases h : runDiff rs k
      rw [h] at hLn hRn
      simp_all
    simp [classifyKey, hstate, classifyState]

/-- Witness for C2 at the concrete scenario: key a is seen only from the left
and is classified left-only. -/
theorem C2_witness : classifyKey exRecords ['a'] = some DiffClass.leftOnly :=
  C2_diff_classification.1 exRecords ['a'] (by decide) (by decide)

/-- C3 counterexample: a hints file whose second line is malformed makes the
load return `none`, which models the `.unwrap()` panic aborting the whole
program — the malformed line is not skipped and the run does not continue. -/
theorem C3_counterexample :
    ([some ['p'], none] : List (Option Key)).any (fun l => l.isNone) = true ∧
    load_ks_lines [some ['p'], none] = none := by
  decide

/-- C3 amended: a malformed hints line is not logged and skipped; the per-line
`.unwrap()` panics, aborting the whole program, so the load succeeds exactly
when every line of the file reads as a valid text line. -/
theorem C3_amended_load_panics (lines : List (Option Key)) :
    (load_ks_lines lines).isSome = lines.all (fun l => l.isSome) := by
  induction lines with
  | nil => rfl
  | cons a t ih =>
    cases a with
    | none => simp [load_ks_lines]
    | some s => simp [load_ks_lines, ih]

/-- C4 counterexample: in list mode the main scope, which is not a producer
task, still holds a sender handle on the record channel, so it is false that
every sender handle is held by a producer (and hence false that the channel
closes as soon as the producer task finishes). -/
theorem C4_counterexample :
    SenderHolder.mainScope ∈ channel_senders RunMode.List ∧
    SenderHolder.isProducer SenderHolder.mainScope = false ∧
    ¬((channel_senders RunMode.List).all SenderHolder.isProducer = true) := by
  decide

/-- C4 amended: in diff mode exactly the two producer tasks hold the two
sender handles, so the channel closes when both finish; in list mode the
single producer holds one sender handle, but the original sender stays alive
in the main scope (through the join loop), so the channel does not close as
soon as the producer task finishes. -/
theorem C4_amended_senders :
    channel_senders RunMode.List
      = [SenderHolder.leftTask, SenderHolder.mainScope] ∧
    ((channel_senders RunMode.List).filter SenderHolder.isProducer).length = 1 ∧
    channel_senders RunMode.BiDir
      = [SenderHolder.rightTask, SenderHolder.leftTask] ∧
    (channel_senders RunMode.BiDir).all SenderHolder.isProducer = true ∧
    ((channel_senders RunMode.BiDir).filter SenderHolder.isProducer).length = 2 := by
  decide

/-- C5: the outstanding-task counter of the shared run state is initialized to
exactly the number of tasks launched — 3 in list mode (listing, data map and
mon task) and 4 in diff mode (two listing tasks plus the same two). -/
theorem C5_tasks_count (q : Bool) (ts : Nat) :
    (∀ m : RunMode,
      (GlobalState.new q (g_tasks_count m) ts).tasks_count = tasks_spawned m) ∧
    g_tasks_count RunMode.List = 3 ∧ g_tasks_count RunMode.BiDir = 4 := by
  refine ⟨fun m => ?_, rfl, rfl⟩
  cases m <;> rfl

/-- C6: Key-Space-Hints construction is deterministic — the left task's hints
(main.rs line 211) and the right task's hints (line 283), both built from the
same sorted, deduplicated list, are structurally identical; and sorting and
deduplicating again changes nothing, so loading the same hints file twice
yields identical partitions. -/
theorem C6_new_from_deterministic (ks_list : List Key) :
    left_ks_hints (sort_dedup ks_list) = right_ks_hints (sort_dedup ks_list) ∧
    sort_dedup (sort_dedup ks_list) = sort_dedup ks_list :=
  ⟨rfl, sort_dedup_idem ks_list⟩

/-- C7: for every hints file content, the list handed to the Key-Space-Hints
constructor after main.rs lines 206-208 is sorted lexicographically and free
of duplicates, and holds exactly the distinct lines of the file, regardless of
their order or repetitions. -/
theorem C7_sort_dedup_spec (l : List Key) :
    (sort_dedup l).Sorted (· ≤ ·) ∧ (sort_dedup l).Nodup ∧
    (∀ k : Key, k ∈ sort_dedup l ↔ k ∈ l) :=
  ⟨sort_dedup_sorted_le l, sort_dedup_nodup l, fun _ => mem_sort_dedup l⟩

/-- C8: absence of the hints file is not an error — the run proceeds with an
empty hints list, which the constructor turns into the single full-range
partition, a range containing every key. -/
theorem C8_absent_hints_file :
    ks_list_from_file none = some [] ∧
    KeySpaceHints.new_from (sort_dedup []) = [(none, none)] ∧
    (∀ k : Key, inRange (none, none) k = true) :=
  ⟨rfl, rfl, fun _ => rfl⟩

/-- C9: path-style addressing is enabled exactly when the force-path-style
flag is set or a custom endpoint URL is supplied, and both bucket sides' task
contexts receive the same addressing mode. -/
theorem C9_path_style (bucket target_bucket : String)
    (region target_region endpoint : Option String) (flag : Bool) :
    (( left_task_ctx bucket region endpoint flag).force_path_style = true
      ↔ (flag = true ∨ endpoint.isSome = true)) ∧
    ( left_task_ctx bucket region endpoint flag).force_path_style
      = ( right_task_ctx target_bucket target_region endpoint flag).force_path_style := by
  constructor
  · simp [left_task_ctx, S3TaskContext.new, opt_force_path_style]
  · rfl

/-- C10: a starting prefix of "/" (the CLI default) is normalized to the empty
string before any task is created, any other value passes through unchanged,
and every listing task (in either mode) starts from the normalized value. -/
theorem C10_prefix_normalization :
    opt_prefix cli_prefix_default = "" ∧
    (∀ p : String, p ≠ "/" → opt_prefix p = p) ∧
    (∀ (mode : RunMode) (p : String),
      ∀ s ∈ task_start_keys mode p, s = opt_prefix p) := by
  refine ⟨rfl, ?_, ?_⟩
  · intro p hp
    simp [ opt_prefix, hp]
  · intro mode p s hs
    cases mode with
    | List => simpa [task_start_keys] using hs
    | BiDir =>
      simp [task_start_keys] at hs
      exact hs

/-- Witness for C10 at the concrete non-default value "photos/". -/
theorem C10_witness :
    ("photos/" : String) ≠ "/" ∧ opt_prefix "photos/" = "photos/" :=
  ⟨by decide, C10_prefix_normalization.2.1 "photos/" (by decide)⟩

end S3FastList
